import Mathlib

/-!
Verification of the ylockers-merkle-drop allocation and Merkle-proof pipeline.

The development shallowly embeds `src/utils/merkle.py` (class `MerkleTree` and
function `create_merkle`) in Lean.  Python dicts are modelled as association
lists in insertion order (`dictInsert` overwrites in place, exactly like a dict
comprehension entry); Python's arbitrary-precision non-negative integers are
`Nat`; 32-byte keccak digests are `Nat` values, with the keccak primitive of
web3 — external to the repository — taken as an abstract function parameter.
A digest comparison on raw bytes coincides with numeric comparison of the
256-bit value, so the list of leaf hashes is ordered by `≤` on `Nat`.
-/

/-! ## Python dict model -/

/-- Keys of an association-list dict, in insertion order. -/
def keys (d : List (String × Nat)) : List String := d.map Prod.fst

/-- Sum of the values of a dict: Python `sum(d.values())`. -/
def sumValues (d : List (String × Nat)) : Nat := (d.map Prod.snd).sum

/-- Dict indexing `d[k]`: the value at the first entry with key `k`. -/
def dictLookup (k : String) : List (String × Nat) → Option Nat
  | [] => none
  | p :: rest => if p.1 = k then some p.2 else dictLookup k rest

/-- Dict update `d[k] = v`: overwrite the entry for `k` in place, or append a
fresh entry when `k` is absent — exactly a Python dict-comprehension step. -/
def dictInsert : List (String × Nat) → String → Nat → List (String × Nat)
  | [], k, v => [(k, v)]
  | p :: rest, k, v => if p.1 = k then (k, v) :: rest else p :: dictInsert rest k v

/-- Dict increment `d[k] += v` on the entry holding `k` (a fresh entry is
appended when `k` is absent; `create_merkle` only ever increments a key that
is present). -/
def updateAdd : List (String × Nat) → String → Nat → List (String × Nat)
  | [], k, v => [(k, v)]
  | p :: rest, k, v => if p.1 = k then (p.1, p.2 + v) :: rest else p :: updateAdd rest k v

/-- Python `str.lower()` (ASCII case folding, which is all hex addresses use). -/
def lowerStr (s : String) : String := ⟨s.data.map Char.toLower⟩

/-! ## The allocation pipeline of `create_merkle`

`create_merkle(user_amount_data, total_distribution, alloc_type)` computes
`total_amounts = sum(user_amount_data.values())`, rebuilds the dict as
`{k.lower(): (v * total_distribution) // total_amounts}`, sorts the keys by
value descending (Python's stable sort), and then while the value sum falls
short of `total_distribution` adds the difference to the address at position
`len(addresses) - 1` of the sorted order. -/

/-- Total of the incoming weights: `total_amounts = sum(user_amount_data.values())`,
taken on the dict as passed in, before any key is lowercased. -/
def listSum (data : List (String × Nat)) : Nat := (data.map Prod.snd).sum

/-- The floor-proportional dict comprehension
`{k.lower(): (v * total_distribution) // total_amounts for k, v in user_amount_data.items()}`. -/
def floorAlloc (data : List (String × Nat)) (T tot : Nat) : List (String × Nat) :=
  data.foldl (fun d p => dictInsert d (lowerStr p.1) (p.2 * T / tot)) []

/-- Descending relation on addresses by allocated amount, `amtGE d a b` meaning
the amount of `a` is at least the amount of `b`. -/
def amtGE (d : List (String × Nat)) (a b : String) : Prop :=
  (dictLookup b d).getD 0 ≤ (dictLookup a d).getD 0

instance (d : List (String × Nat)) : DecidableRel (amtGE d) :=
  fun a b => inferInstanceAs (Decidable ((dictLookup b d).getD 0 ≤ (dictLookup a d).getD 0))

instance (d : List (String × Nat)) : IsTotal String (amtGE d) :=
  ⟨fun a b => Nat.le_total ((dictLookup b d).getD 0) ((dictLookup a d).getD 0)⟩

instance (d : List (String × Nat)) : IsTrans String (amtGE d) :=
  ⟨fun _ _ _ hab hbc => Nat.le_trans hbc hab⟩

/-- The sort `sorted(user_amount_data, key=lambda k: user_amount_data[k], reverse=True)`:
Python's sort is stable, and a stable descending sort is exactly insertion sort
with the "at least as large, so stays in front" relation. -/
def sortAddressesDesc (d : List (String × Nat)) : List String :=
  List.insertionSort (amtGE d) (keys d)

/-- One pass of the dust loop body:
`diff = total_distribution - sum(...); user_amount_data[addresses[-1]] += diff`. -/
def dustStep (d : List (String × Nat)) (last : String) (T : Nat) : List (String × Nat) :=
  updateAdd d last (T - sumValues d)

/-- Fuelled unfolding of the `while sum(user_amount_data.values()) < total_distribution`
loop.  `dustLoop` below supplies enough fuel, and `dustLoop_unfold` proves the
fuelled computation satisfies the loop's own fixed-point equation, so nothing
is lost against the unbounded Python loop. -/
def dustLoopAux : Nat → List (String × Nat) → String → Nat → List (String × Nat)
  | 0, d, _, _ => d
  | fuel + 1, d, last, T =>
    if sumValues d < T then dustLoopAux fuel (dustStep d last T) last T else d

/-- The dust-correction while loop of `create_merkle`. -/
def dustLoop (d : List (String × Nat)) (last : String) (T : Nat) : List (String × Nat) :=
  dustLoopAux (T - sumValues d + 1) d last T

/-- The floor-proportional dict built by `create_merkle` for a given input. -/
def floorOf (data : List (String × Nat)) (T : Nat) : List (String × Nat) :=
  floorAlloc data T (listSum data)

/-- The descending address order `addresses` of `create_merkle`. -/
def addrsOf (data : List (String × Nat)) (T : Nat) : List String :=
  sortAddressesDesc (floorOf data T)

/-- The address `addresses[len(addresses) - 1]` receiving the rounding dust. -/
def lastOf (data : List (String × Nat)) (T : Nat) : String :=
  (addrsOf data T).getLastD ""

/-- The allocation `create_merkle` ends up with after the dust loop. -/
def createAlloc (data : List (String × Nat)) (T : Nat) : List (String × Nat) :=
  dustLoop (floorOf data T) (lastOf data T) T

/-! ## Dict lemmas -/

theorem sumValues_nil : sumValues [] = 0 := rfl

theorem sumValues_cons (p : String × Nat) (l : List (String × Nat)) :
    sumValues (p :: l) = p.2 + sumValues l := by
  simp [sumValues]

theorem sumValues_dictInsert_le (d : List (String × Nat)) (k : String) (v : Nat) :
    sumValues (dictInsert d k v) ≤ sumValues d + v := by
  induction d with
  | nil => simp [dictInsert, sumValues]
  | cons p rest ih =>
    by_cases h : p.1 = k
    · simp [dictInsert, h, sumValues_cons]
      omega
    · simp [dictInsert, h, sumValues_cons]
      omega

theorem sumValues_updateAdd (d : List (String × Nat)) (k : String) (v : Nat) :
    sumValues (updateAdd d k v) = sumValues d + v := by
  induction d with
  | nil => simp [updateAdd, sumValues]
  | cons p rest ih =>
    by_cases h : p.1 = k
    · simp [updateAdd, h, sumValues_cons]
      omega
    · simp [updateAdd, h, sumValues_cons]
      omega

theorem keys_cons (p : String × Nat) (l : List (String × Nat)) :
    keys (p :: l) = p.1 :: keys l := rfl

theorem dictLookup_dictInsert (d : List (String × Nat)) (k k' : String) (v : Nat) :
    dictLookup k (dictInsert d k' v) = if k' = k then some v else dictLookup k d := by
  induction d with
  | nil => simp [dictInsert, dictLookup]
  | cons p rest ih =>
    simp only [dictInsert]
    by_cases h : p.1 = k'
    · rw [if_pos h]
      simp only [dictLookup]
      by_cases hk : k' = k
      · simp [hk]
      · have hp : ¬ p.1 = k := by rw [h]; exact hk
        simp [hk, hp]
    · rw [if_neg h]
      simp only [dictLookup]
      by_cases hpk : p.1 = k
      · have hk : ¬ k' = k := by intro he; exact h (by rw [hpk, he])
        simp [hpk, hk]
      · simp [hpk, ih]

theorem dictLookup_updateAdd_ne (d : List (String × Nat)) (k k' : String) (v : Nat)
    (h : k ≠ k') : dictLookup k (updateAdd d k' v) = dictLookup k d := by
  induction d with
  | nil => simp [updateAdd, dictLookup, Ne.symm h]
  | cons p rest ih =>
    simp only [updateAdd]
    by_cases hp : p.1 = k'
    · have hpk : ¬ p.1 = k := by rw [hp]; exact Ne.symm h
      rw [if_pos hp]
      simp [dictLookup, hpk]
    · rw [if_neg hp]
      simp only [dictLookup]
      by_cases hpk : p.1 = k
      · simp [hpk]
      · simp [hpk, ih]

theorem dictLookup_updateAdd_self (d : List (String × Nat)) (k : String) (v : Nat)
    (h : k ∈ keys d) :
    dictLookup k (updateAdd d k v) = (dictLookup k d).map (· + v) := by
  induction d with
  | nil => simp [keys] at h
  | cons p rest ih =>
    simp only [updateAdd]
    by_cases hp : p.1 = k
    · rw [if_pos hp]
      simp [dictLookup, hp]
    · rw [if_neg hp]
      have hrest : k ∈ keys rest := by
        rw [keys_cons, List.mem_cons] at h
        rcases h with h | h
        · exact absurd h.symm hp
        · exact h
      simp [dictLookup, hp, ih hrest]

theorem mem_keys_of_dictLookup (d : List (String × Nat)) (k : String) (v : Nat)
    (h : dictLookup k d = some v) : k ∈ keys d := by
  induction d with
  | nil => simp [dictLookup] at h
  | cons p rest ih =>
    simp only [dictLookup] at h
    rw [keys_cons, List.mem_cons]
    by_cases hp : p.1 = k
    · exact Or.inl hp.symm
    · rw [if_neg hp] at h
      exact Or.inr (ih h)

theorem mem_keys_dictInsert (d : List (String × Nat)) (k k' : String) (v : Nat) :
    k' ∈ keys (dictInsert d k v) ↔ k' ∈ keys d ∨ k' = k := by
  induction d with
  | nil => simp [dictInsert, keys]
  | cons p rest ih =>
    simp only [dictInsert]
    by_cases hp : p.1 = k
    · rw [if_pos hp, keys_cons, keys_cons, List.mem_cons, List.mem_cons]
      constructor
      · rintro (h | h)
        · exact Or.inr h
        · exact Or.inl (Or.inr h)
      · rintro ((h | h) | h)
        · exact Or.inl (h.trans hp)
        · exact Or.inr h
        · exact Or.inl h
    · rw [if_neg hp, keys_cons, keys_cons, List.mem_cons, List.mem_cons, ih]
      tauto

theorem nodup_keys_dictInsert (d : List (String × Nat)) (k : String) (v : Nat)
    (h : (keys d).Nodup) : (keys (dictInsert d k v)).Nodup := by
  induction d with
  | nil => simp [dictInsert, keys]
  | cons p rest ih =>
    simp only [dictInsert]
    rw [keys_cons, List.nodup_cons] at h
    by_cases hp : p.1 = k
    · rw [if_pos hp, keys_cons, List.nodup_cons]
      exact ⟨by rw [show (k, v).1 = p.1 from hp.symm]; exact h.1, h.2⟩
    · rw [if_neg hp, keys_cons, List.nodup_cons]
      refine ⟨?_, ih h.2⟩
      intro hmem
      rcases (mem_keys_dictInsert rest k p.1 v).1 hmem with h2 | h2
      · exact h.1 h2
      · exact hp h2

theorem dictInsert_ne_nil (d : List (String × Nat)) (k : String) (v : Nat) :
    dictInsert d k v ≠ [] := by
  cases d with
  | nil => simp [dictInsert]
  | cons p rest =>
    by_cases hp : p.1 = k <;> simp [dictInsert, hp]

/-! ## The dust loop -/

theorem dustLoopAux_of_not_lt (fuel : Nat) (d : List (String × Nat)) (last : String)
    (T : Nat) (h : ¬ sumValues d < T) : dustLoopAux fuel d last T = d := by
  cases fuel with
  | zero => rfl
  | succ f => simp [dustLoopAux, h]

theorem dustStep_sum (d : List (String × Nat)) (last : String) (T : Nat)
    (h : sumValues d ≤ T) : sumValues (dustStep d last T) = T := by
  rw [dustStep, sumValues_updateAdd]
  omega

/-- The fuelled loop satisfies the while loop's own unfolding equation, so it
is a faithful rendering of `while sum(...) < total_distribution: ...`. -/
theorem dustLoop_unfold (d : List (String × Nat)) (last : String) (T : Nat) :
    dustLoop d last T =
      if sumValues d < T then dustLoop (dustStep d last T) last T else d := by
  by_cases h : sumValues d < T
  · rw [if_pos h]
    have hsum : sumValues (dustStep d last T) = T := dustStep_sum d last T (Nat.le_of_lt h)
    have hstop : ¬ sumValues (dustStep d last T) < T := by omega
    rw [dustLoop, dustLoop]
    simp only [dustLoopAux, if_pos h]
    rw [dustLoopAux_of_not_lt _ _ _ _ hstop, if_neg hstop]
  · rw [if_neg h, dustLoop, dustLoopAux_of_not_lt _ _ _ _ h]

theorem dustLoop_eq_single_step (d : List (String × Nat)) (last : String) (T : Nat) :
    dustLoop d last T = if sumValues d < T then dustStep d last T else d := by
  rw [dustLoop_unfold]
  by_cases h : sumValues d < T
  · rw [if_pos h, if_pos h, dustLoop,
      dustLoopAux_of_not_lt _ _ _ _ (by rw [dustStep_sum d last T (Nat.le_of_lt h)]; omega)]
  · rw [if_neg h, if_neg h]

theorem dustLoop_sum (d : List (String × Nat)) (last : String) (T : Nat)
    (h : sumValues d ≤ T) : sumValues (dustLoop d last T) = T := by
  rw [dustLoop_eq_single_step]
  by_cases hlt : sumValues d < T
  · rw [if_pos hlt, dustStep_sum d last T h]
  · rw [if_neg hlt]
    omega

/-! ## The floor allocation under-allocates -/

theorem sumValues_floorAlloc_fold_le (T tot : Nat) :
    ∀ (data : List (String × Nat)) (d0 : List (String × Nat)),
      sumValues (data.foldl (fun d p => dictInsert d (lowerStr p.1) (p.2 * T / tot)) d0)
        ≤ sumValues d0 + (data.map (fun p => p.2 * T / tot)).sum := by
  intro data
  induction data with
  | nil => intro d0; simp
  | cons p rest ih =>
    intro d0
    simp only [List.foldl_cons, List.map_cons, List.sum_cons]
    calc sumValues (rest.foldl (fun d q => dictInsert d (lowerStr q.1) (q.2 * T / tot))
            (dictInsert d0 (lowerStr p.1) (p.2 * T / tot)))
        ≤ sumValues (dictInsert d0 (lowerStr p.1) (p.2 * T / tot))
            + (rest.map (fun q => q.2 * T / tot)).sum := ih _
      _ ≤ sumValues d0 + p.2 * T / tot + (rest.map (fun q => q.2 * T / tot)).sum := by
            have := sumValues_dictInsert_le d0 (lowerStr p.1) (p.2 * T / tot)
            omega
      _ = sumValues d0 + (p.2 * T / tot + (rest.map (fun q => q.2 * T / tot)).sum) := by omega

theorem sum_map_div_le (tot : Nat) :
    ∀ l : List Nat, (l.map (· / tot)).sum ≤ l.sum / tot := by
  intro l
  induction l with
  | nil => simp
  | cons a rest ih =>
    simp only [List.map_cons, List.sum_cons]
    calc a / tot + (rest.map (· / tot)).sum ≤ a / tot + rest.sum / tot := by omega
      _ ≤ (a + rest.sum) / tot := Nat.add_div_le_add_div a rest.sum tot

theorem sumValues_floorOf_le (data : List (String × Nat)) (T : Nat)
    (htot : 0 < listSum data) : sumValues (floorOf data T) ≤ T := by
  have h1 := sumValues_floorAlloc_fold_le T (listSum data) data []
  rw [sumValues_nil, Nat.zero_add] at h1
  have h2 : (data.map (fun p => p.2 * T / listSum data)).sum
      ≤ (data.map (fun p => p.2 * T)).sum / listSum data := by
    have := sum_map_div_le (listSum data) (data.map (fun p => p.2 * T))
    rw [List.map_map] at this
    exact this
  have h3 : (data.map (fun p => p.2 * T)).sum = listSum data * T := by
    have := List.sum_map_mul_right data (fun p => p.2) T
    rw [listSum]
    calc (data.map (fun p => p.2 * T)).sum = (data.map Prod.snd).sum * T := by
          simpa using this
      _ = listSum data * T := by rw [listSum]
  have h4 : listSum data * T / listSum data = T := by
    rw [Nat.mul_comm]
    exact Nat.mul_div_cancel T htot
  rw [h3, h4] at h2
  rw [floorOf, floorAlloc]
  omega

/-! ## The dust receiver is a key of the floor allocation -/

theorem floorAlloc_foldl_ne_nil (T tot : Nat) :
    ∀ (rest : List (String × Nat)) (d0 : List (String × Nat)), d0 ≠ [] →
      rest.foldl (fun d p => dictInsert d (lowerStr p.1) (p.2 * T / tot)) d0 ≠ [] := by
  intro rest
  induction rest with
  | nil => intro d0 h; simpa using h
  | cons p rest ih =>
    intro d0 _
    rw [List.foldl_cons]
    exact ih _ (dictInsert_ne_nil _ _ _)

theorem floorOf_ne_nil (data : List (String × Nat)) (T : Nat) (h : data ≠ []) :
    floorOf data T ≠ [] := by
  cases data with
  | nil => exact absurd rfl h
  | cons p rest =>
    rw [floorOf, floorAlloc, List.foldl_cons]
    exact floorAlloc_foldl_ne_nil _ _ rest _ (dictInsert_ne_nil _ _ _)

theorem getLastD_mem (l : List String) (d : String) (h : l ≠ []) : l.getLastD d ∈ l := by
  have hlast : l.getLastD d = l.getLast h := by
    rw [List.getLastD_eq_getLast?, List.getLast?_eq_getLast l h]
    rfl
  rw [hlast]
  exact List.getLast_mem h

theorem addrsOf_perm (data : List (String × Nat)) (T : Nat) :
    (addrsOf data T).Perm (keys (floorOf data T)) :=
  List.perm_insertionSort _ _

theorem addrsOf_ne_nil (data : List (String × Nat)) (T : Nat) (h : data ≠ []) :
    addrsOf data T ≠ [] := by
  intro hnil
  have hperm := addrsOf_perm data T
  rw [hnil] at hperm
  have := hperm.symm.eq_nil
  rw [keys, List.map_eq_nil] at this
  exact floorOf_ne_nil data T h this

theorem lastOf_mem_keys (data : List (String × Nat)) (T : Nat) (h : data ≠ []) :
    lastOf data T ∈ keys (floorOf data T) := by
  have hmem : lastOf data T ∈ addrsOf data T :=
    getLastD_mem _ _ (addrsOf_ne_nil data T h)
  exact (addrsOf_perm data T).subset hmem

theorem mem_imp_rel_getLast (r : String → String → Prop) (l : List String) (hl : l ≠ [])
    (hp : List.Pairwise r l) (hrefl : ∀ a, r a a) (d : String) :
    ∀ x ∈ l, r x (l.getLastD d) := by
  intro x hx
  have hlast : l.getLastD d = l.getLast hl := by
    rw [List.getLastD_eq_getLast?, List.getLast?_eq_getLast l hl]
    rfl
  rw [hlast]
  have hdecomp : l.dropLast ++ [l.getLast hl] = l := List.dropLast_append_getLast hl
  rw [← hdecomp] at hp hx
  rw [List.pairwise_append] at hp
  rcases List.mem_append.1 hx with hmem | hmem
  · exact hp.2.2 x hmem _ (List.mem_singleton_self _)
  · rw [List.mem_singleton] at hmem
    rw [hmem]
    exact hrefl _

/-! ## Claim theorems for the allocation -/

/-- C1: for every non-empty weight map with non-negative weights and strictly
positive total weight, and every target total `T`, the allocation produced by
`create_merkle` (floor amounts, then dust correction) sums to exactly `T` —
the `assert sum(user_amount_data.values()) == total_distribution` never fires. -/
theorem create_merkle_exact_sum (data : List (String × Nat)) (T : Nat)
    (h1 : data ≠ []) (h2 : 0 < listSum data) :
    sumValues (createAlloc data T) = T := by
  rw [createAlloc]
  exact dustLoop_sum _ _ _ (sumValues_floorOf_le data T h2)

/-- Witness for C1 at the weight map `{A: 1, B: 2}` with total 10. -/
theorem create_merkle_exact_sum_witness :
    sumValues (createAlloc [("A", 1), ("B", 2)] 10) = 10 :=
  create_merkle_exact_sum [("A", 1), ("B", 2)] 10 (by decide) (by decide)

/-- C10: the dust-correction while loop terminates after at most one
iteration: one pass of the body already brings the value sum to exactly
`total_distribution`, so the guard fails, and the loop as a whole equals its
single conditional step. -/
theorem dust_loop_single_iteration (data : List (String × Nat)) (T : Nat)
    (h1 : data ≠ []) (h2 : 0 < listSum data) :
    sumValues (dustStep (floorOf data T) (lastOf data T) T) = T
    ∧ createAlloc data T =
        if sumValues (floorOf data T) < T then dustStep (floorOf data T) (lastOf data T) T
        else floorOf data T := by
  constructor
  · exact dustStep_sum _ _ _ (sumValues_floorOf_le data T h2)
  · rw [createAlloc]
    exact dustLoop_eq_single_step _ _ _

/-- Witness for C10 at the weight map `{A: 1, B: 2}` with total 10. -/
theorem dust_loop_single_iteration_witness :
    sumValues (dustStep (floorOf [("A", 1), ("B", 2)] 10) (lastOf [("A", 1), ("B", 2)] 10) 10)
      = 10 :=
  (dust_loop_single_iteration [("A", 1), ("B", 2)] 10 (by decide) (by decide)).1

/-- C2 counterexample: on weights `{A: 1, B: 2}` with total 10 the floors are
`{a: 3, b: 6}` and the shortfall of 1 goes to `a` — the address ranked last
(smallest amount) in the descending order — producing `{b: 6, a: 4}`, not the
claimed `{B: 7, A: 3}`. -/
theorem dust_to_first_ranked_counterexample :
    dictLookup "a" (createAlloc [("A", 1), ("B", 2)] 10) = some 4
    ∧ dictLookup "b" (createAlloc [("A", 1), ("B", 2)] 10) = some 6
    ∧ ¬ (dictLookup "b" (createAlloc [("A", 1), ("B", 2)] 10) = some 7
          ∧ dictLookup "a" (createAlloc [("A", 1), ("B", 2)] 10) = some 3) := by
  refine ⟨by decide, by decide, ?_⟩
  intro h
  have := h.1
  revert this
  decide

/-- C2 amended: whenever the floor amounts sum to strictly less than the
target, `create_merkle` adds the entire shortfall to the single address ranked
last (smallest amount) in the descending-amount sort order — every other
address keeps its floor amount, the last-ranked address gains exactly the
shortfall, and its floor amount is a minimum over all addresses. -/
theorem dust_goes_to_last_ranked (data : List (String × Nat)) (T : Nat)
    (h1 : data ≠ []) (h2 : 0 < listSum data)
    (h3 : sumValues (floorOf data T) < T) :
    (∀ k, k ≠ lastOf data T →
        dictLookup k (createAlloc data T) = dictLookup k (floorOf data T))
    ∧ dictLookup (lastOf data T) (createAlloc data T)
        = (dictLookup (lastOf data T) (floorOf data T)).map
            (· + (T - sumValues (floorOf data T)))
    ∧ ∀ k ∈ keys (floorOf data T),
        (dictLookup (lastOf data T) (floorOf data T)).getD 0
          ≤ (dictLookup k (floorOf data T)).getD 0 := by
  have hca : createAlloc data T = dustStep (floorOf data T) (lastOf data T) T := by
    rw [createAlloc, dustLoop_eq_single_step, if_pos h3]
  refine ⟨?_, ?_, ?_⟩
  · intro k hk
    rw [hca, dustStep]
    exact dictLookup_updateAdd_ne _ _ _ _ hk
  · rw [hca, dustStep]
    exact dictLookup_updateAdd_self _ _ _ (lastOf_mem_keys data T h1)
  · intro k hk
    have hs : List.Pairwise (amtGE (floorOf data T)) (addrsOf data T) :=
      List.sorted_insertionSort (amtGE (floorOf data T)) (keys (floorOf data T))
    have hkmem : k ∈ addrsOf data T := (addrsOf_perm data T).mem_iff.2 hk
    exact mem_imp_rel_getLast (amtGE (floorOf data T)) (addrsOf data T)
      (addrsOf_ne_nil data T h1) hs (fun a => Nat.le_refl _) "" k hkmem

/-- Witness for the amended C2 at the weight map `{A: 1, B: 2}` with total 10:
`b` (ranked first) keeps its floor amount 6, while last-ranked `a` absorbs the
shortfall. -/
theorem dust_goes_to_last_ranked_witness :
    dictLookup "b" (createAlloc [("A", 1), ("B", 2)] 10)
        = dictLookup "b" (floorOf [("A", 1), ("B", 2)] 10)
    ∧ dictLookup (lastOf [("A", 1), ("B", 2)] 10) (createAlloc [("A", 1), ("B", 2)] 10)
        = (dictLookup (lastOf [("A", 1), ("B", 2)] 10) (floorOf [("A", 1), ("B", 2)] 10)).map
            (· + (10 - sumValues (floorOf [("A", 1), ("B", 2)] 10))) := by
  have h := dust_goes_to_last_ranked [("A", 1), ("B", 2)] 10 (by decide) (by decide) (by decide)
  exact ⟨h.1 "b" (by decide), h.2.1⟩

/-! ## The `MerkleTree` class of `src/utils/merkle.py`

Leaves are hex-encoded node strings; `web3.keccak(hexstr=el)` and the keccak
of a 64-byte concatenation are external cryptographic primitives, taken as
abstract parameters `keccak : String → Nat` (leaf hashing) and
`keccakPair : Nat → Nat → Nat` (hashing the concatenation of two sorted
32-byte digests).  Comparison of 32-byte strings by raw byte value is numeric
comparison of the corresponding 256-bit integers, hence `≤` on `Nat`. -/

/-- The method `combined_hash(a, b)` on two present digests: sort the pair by
raw bytes, concatenate in that order and keccak the result.  The `None`
branches of the Python code are the `zip_longest` padding and appear
structurally in `getNextLayer` below. -/
def combinedHash (keccakPair : Nat → Nat → Nat) (a b : Nat) : Nat :=
  if a ≤ b then keccakPair a b else keccakPair b a

/-- The method `get_next_layer(elements)`:
`[combined_hash(a, b) for a, b in zip_longest(elements[::2], elements[1::2])]`.
An odd trailing element is paired with `None`, and `combined_hash(a, None)`
returns `a` unchanged. -/
def getNextLayer (keccakPair : Nat → Nat → Nat) : List Nat → List Nat
  | [] => []
  | [a] => [a]
  | a :: b :: rest => combinedHash keccakPair a b :: getNextLayer keccakPair rest

/-- Fuelled rendering of the loop in `get_layers`:
`layers = [elements]; while len(layers[-1]) > 1: layers.append(get_next_layer(layers[-1]))`.
Each pass strictly shrinks a layer of length `> 1`, so `elements.length` is
always enough fuel; `getLayersAux_congr` shows any sufficient fuel agrees. -/
def getLayersAux (keccakPair : Nat → Nat → Nat) : Nat → List Nat → List (List Nat)
  | 0, l => [l]
  | fuel + 1, l =>
    if 1 < l.length then l :: getLayersAux keccakPair fuel (getNextLayer keccakPair l)
    else [l]

/-- The method `get_layers(elements)`. -/
def getLayers (keccakPair : Nat → Nat → Nat) (l : List Nat) : List (List Nat) :=
  getLayersAux keccakPair l.length l

/-- The property `root`, i.e. `self.layers[-1][0]`: `none` when the final
layer is empty (Python raises an `IndexError` there). -/
def rootOpt (keccakPair : Nat → Nat → Nat) (l : List Nat) : Option Nat :=
  ((getLayers keccakPair l).getLastD []).head?

/-- The root with the (unreachable for non-empty trees) default 0. -/
def rootD (keccakPair : Nat → Nat → Nat) (l : List Nat) : Nat :=
  ((getLayers keccakPair l).getLastD []).headD 0

/-- The loop of `get_proof`: walk all layers, at each layer append the value
at the pair index `idx + 1` (idx even) or `idx - 1` (idx odd) when that index
is in bounds, then halve `idx`.  Siblings are returned as raw digests; the
Python code hex-encodes each one, which `toHex64` below renders. -/
def getProofAux (keccakPair : Nat → Nat → Nat) : List (List Nat) → Nat → List Nat
  | [], _ => []
  | layer :: rest, idx =>
    (if (if idx % 2 = 0 then idx + 1 else idx - 1) < layer.length then
        [layer.getD (if idx % 2 = 0 then idx + 1 else idx - 1) 0]
      else []) ++ getProofAux keccakPair rest (idx / 2)

/-- The constructor line
`self.elements = sorted(set(web3.keccak(hexstr=el) for el in elements))`:
the ascending sorted list of the distinct leaf digests.  `List.dedup` keeps
the distinct digests and insertion sort by `≤` produces the sorted order; the
result is the unique sorted duplicate-free list of the digest set, exactly
Python's `sorted(set(...))`. -/
def leafHashes (keccak : String → Nat) (elements : List String) : List Nat :=
  List.insertionSort (· ≤ ·) ((elements.map keccak).dedup)

/-- The method `get_proof(el)`: hash the element, locate it in the sorted
leaf list and collect the sibling path. -/
def getProof (keccak : String → Nat) (keccakPair : Nat → Nat → Nat)
    (elements : List String) (el : String) : List Nat :=
  getProofAux keccakPair (getLayers keccakPair (leafHashes keccak elements))
    ((leafHashes keccak elements).indexOf (keccak el))

/-! ## Structure of one layer step -/

theorem combinedHash_comm (keccakPair : Nat → Nat → Nat) (a b : Nat) :
    combinedHash keccakPair a b = combinedHash keccakPair b a := by
  rw [combinedHash, combinedHash]
  rcases Nat.le_total a b with h | h
  · by_cases hba : b ≤ a
    · have : a = b := Nat.le_antisymm h hba
      simp [this]
    · rw [if_pos h, if_neg hba]
  · by_cases hab : a ≤ b
    · have : a = b := Nat.le_antisymm hab h
      simp [this]
    · rw [if_neg hab, if_pos h]

theorem getNextLayer_length (keccakPair : Nat → Nat → Nat) :
    ∀ l : List Nat, (getNextLayer keccakPair l).length = (l.length + 1) / 2
  | [] => by simp [getNextLayer]
  | [a] => by simp [getNextLayer]
  | a :: b :: rest => by
    simp only [getNextLayer, List.length_cons, getNextLayer_length keccakPair rest]
    omega

theorem getNextLayer_getD_pair (keccakPair : Nat → Nat → Nat) :
    ∀ (l : List Nat) (k : Nat), 2 * k + 1 < l.length →
      (getNextLayer keccakPair l).getD k 0
        = combinedHash keccakPair (l.getD (2 * k) 0) (l.getD (2 * k + 1) 0)
  | [], k, h => by simp at h
  | [a], k, h => by simp at h
  | a :: b :: rest, 0, h => by simp [getNextLayer]
  | a :: b :: rest, k + 1, h => by
    have hrest : 2 * k + 1 < rest.length := by
      simp only [List.length_cons] at h
      omega
    have hidx : 2 * (k + 1) = 2 * k + 2 := by omega
    simp only [getNextLayer, hidx]
    show (getNextLayer keccakPair rest).getD k 0 = _
    rw [getNextLayer_getD_pair keccakPair rest k hrest]
    rfl

theorem getNextLayer_getD_last (keccakPair : Nat → Nat → Nat) :
    ∀ (l : List Nat) (k : Nat), l.length = 2 * k + 1 →
      (getNextLayer keccakPair l).getD k 0 = l.getD (2 * k) 0
  | [], k, h => by simp at h
  | [a], k, h => by
    have : k = 0 := by simp at h; omega
    subst this
    simp [getNextLayer]
  | a :: b :: rest, k, h => by
    have hk : ∃ k', k = k' + 1 := by
      refine ⟨k - 1, ?_⟩
      simp only [List.length_cons] at h
      omega
    obtain ⟨k', rfl⟩ := hk
    have hrest : rest.length = 2 * k' + 1 := by
      simp only [List.length_cons] at h
      omega
    have hidx : 2 * (k' + 1) = 2 * k' + 2 := by omega
    simp only [getNextLayer, hidx]
    show (getNextLayer keccakPair rest).getD k' 0 = _
    rw [getNextLayer_getD_last keccakPair rest k' hrest]
    rfl

/-! ## The layer loop: fuel irrelevance and unfolding equations -/

theorem getLayersAux_congr (keccakPair : Nat → Nat → Nat) :
    ∀ (f1 : Nat) (l : List Nat) (f2 : Nat), l.length ≤ f1 → l.length ≤ f2 →
      getLayersAux keccakPair f1 l = getLayersAux keccakPair f2 l := by
  intro f1
  induction f1 with
  | zero =>
    intro l f2 h1 _
    have hl : l.length = 0 := Nat.le_zero.1 h1
    cases f2 with
    | zero => rfl
    | succ f =>
      simp only [getLayersAux]
      rw [if_neg (by omega)]
  | succ f1 ih =>
    intro l f2 h1 h2
    cases f2 with
    | zero =>
      have hl : l.length = 0 := Nat.le_zero.1 h2
      simp only [getLayersAux]
      rw [if_neg (by omega)]
    | succ f2 =>
      simp only [getLayersAux]
      by_cases hlen : 1 < l.length
      · rw [if_pos hlen, if_pos hlen]
        have hnext := getNextLayer_length keccakPair l
        have hle1 : (getNextLayer keccakPair l).length ≤ f1 := by omega
        have hle2 : (getNextLayer keccakPair l).length ≤ f2 := by omega
        rw [ih (getNextLayer keccakPair l) f2 hle1 hle2]
      · rw [if_neg hlen, if_neg hlen]

theorem getLayers_cons (keccakPair : Nat → Nat → Nat) (l : List Nat)
    (h : 1 < l.length) :
    getLayers keccakPair l = l :: getLayers keccakPair (getNextLayer keccakPair l) := by
  obtain ⟨m, hm⟩ : ∃ m, l.length = m + 1 := ⟨l.length - 1, by omega⟩
  rw [getLayers, hm]
  simp only [getLayersAux]
  rw [if_pos h, getLayers]
  have hnext := getNextLayer_length keccakPair l
  rw [getLayersAux_congr keccakPair m (getNextLayer keccakPair l)
    (getNextLayer keccakPair l).length (by omega) (Nat.le_refl _)]

theorem getLayers_single (keccakPair : Nat → Nat → Nat) (l : List Nat)
    (h : l.length ≤ 1) : getLayers keccakPair l = [l] := by
  rw [getLayers]
  cases l with
  | nil => rfl
  | cons a rest =>
    have : rest = [] := by
      cases rest with
      | nil => rfl
      | cons b t => simp at h
    subst this
    simp [getLayersAux]

theorem getLayers_ne_nil (keccakPair : Nat → Nat → Nat) (l : List Nat) :
    getLayers keccakPair l ≠ [] := by
  by_cases h : 1 < l.length
  · rw [getLayers_cons keccakPair l h]
    simp
  · rw [getLayers_single keccakPair l (by omega)]
    simp

theorem getLastD_irrel {α : Type} (l : List α) (d1 d2 : α) (h : l ≠ []) :
    l.getLastD d1 = l.getLastD d2 := by
  rw [List.getLastD_eq_getLast?, List.getLastD_eq_getLast?, List.getLast?_eq_getLast l h]
  rfl

theorem rootD_cons (keccakPair : Nat → Nat → Nat) (l : List Nat) (h : 1 < l.length) :
    rootD keccakPair l = rootD keccakPair (getNextLayer keccakPair l) := by
  rw [rootD, rootD, getLayers_cons keccakPair l h]
  have hne := getLayers_ne_nil keccakPair (getNextLayer keccakPair l)
  cases hgl : getLayers keccakPair (getNextLayer keccakPair l) with
  | nil => exact absurd hgl hne
  | cons x rest => rfl

theorem rootOpt_eq_some_rootD (keccakPair : Nat → Nat → Nat) (l : List Nat)
    (hne : l ≠ []) : rootOpt keccakPair l = some (rootD keccakPair l) := by
  by_cases h : 1 < l.length
  · have hnextne : getNextLayer keccakPair l ≠ [] := by
      intro hnil
      have := getNextLayer_length keccakPair l
      rw [hnil] at this
      simp at this
      omega
    have hrec := rootOpt_eq_some_rootD keccakPair (getNextLayer keccakPair l) hnextne
    rw [rootOpt, rootD, getLayers_cons keccakPair l h]
    have hgne := getLayers_ne_nil keccakPair (getNextLayer keccakPair l)
    cases hgl : getLayers keccakPair (getNextLayer keccakPair l) with
    | nil => exact absurd hgl hgne
    | cons x rest =>
      rw [rootOpt, rootD, hgl] at hrec
      rw [List.getLastD_cons]
      exact hrec
  · cases l with
    | nil => exact absurd rfl hne
    | cons a rest =>
      have : rest = [] := by
        cases rest with
        | nil => rfl
        | cons b t => simp at h
      subst this
      rw [rootOpt, rootD, getLayers_single keccakPair [a] (by simp)]
      rfl
termination_by l.length
decreasing_by
  have := getNextLayer_length keccakPair l
  omega

/-! ## Proof reconstruction -/

theorem foldl_getProofAux_eq_rootD (keccakPair : Nat → Nat → Nat) (L : List Nat)
    (i : Nat) (h : i < L.length) :
    List.foldl (combinedHash keccakPair) (L.getD i 0)
      (getProofAux keccakPair (getLayers keccakPair L) i) = rootD keccakPair L := by
  by_cases h2 : 1 < L.length
  · rw [getLayers_cons keccakPair L h2, rootD_cons keccakPair L h2]
    set N := getNextLayer keccakPair L with hN
    have hNlen : N.length = (L.length + 1) / 2 := getNextLayer_length keccakPair L
    have hhalf : i / 2 < N.length := by omega
    have hrec := foldl_getProofAux_eq_rootD keccakPair N (i / 2) hhalf
    simp only [getProofAux]
    by_cases hpar : i % 2 = 0
    · rw [if_pos hpar]
      by_cases hbound : i + 1 < L.length
      · rw [if_pos hbound, List.singleton_append, List.foldl_cons]
        have hpair := getNextLayer_getD_pair keccakPair L (i / 2) (by omega)
        rw [show 2 * (i / 2) = i from by omega] at hpair
        rw [← hN] at hpair
        rw [← hpair]
        exact hrec
      · rw [if_neg hbound, List.nil_append]
        have hlast := getNextLayer_getD_last keccakPair L (i / 2) (by omega)
        rw [show 2 * (i / 2) = i from by omega] at hlast
        rw [← hN] at hlast
        rw [← hlast]
        exact hrec
    · rw [if_neg hpar]
      have hbound : i - 1 < L.length := by omega
      rw [if_pos hbound, List.singleton_append, List.foldl_cons]
      rw [combinedHash_comm keccakPair (L.getD i 0) (L.getD (i - 1) 0)]
      have hpair := getNextLayer_getD_pair keccakPair L (i / 2) (by omega)
      rw [show 2 * (i / 2) = i - 1 from by omega] at hpair
      rw [show i - 1 + 1 = i from by omega] at hpair
      rw [← hN] at hpair
      rw [← hpair]
      exact hrec
  · cases L with
    | nil => simp at h
    | cons a rest =>
      have hrest : rest = [] := by
        cases rest with
        | nil => rfl
        | cons b t => simp at h2
      subst hrest
      have hi : i = 0 := by
        simp at h
        exact h
      subst hi
      rw [getLayers_single keccakPair [a] (by simp), rootD,
        getLayers_single keccakPair [a] (by simp)]
      simp [getProofAux]
termination_by L.length
decreasing_by
  have := getNextLayer_length keccakPair L
  omega

/-! ## Locating a leaf -/

theorem getD_indexOf_nat : ∀ (l : List Nat) (a : Nat), a ∈ l →
    l.getD (l.indexOf a) 0 = a := by
  intro l a
  induction l with
  | nil => simp
  | cons b rest ih =>
    intro hmem
    rw [List.indexOf_cons]
    by_cases hb : b = a
    · simp [hb]
    · have hbeq : (b == a) = false := beq_false_of_ne hb
      rw [hbeq, cond_false, List.getD_cons_succ]
      apply ih
      rcases List.mem_cons.1 hmem with h | h
      · exact absurd h.symm hb
      · exact h

theorem mem_leafHashes (keccak : String → Nat) (elements : List String) (el : String)
    (h : el ∈ elements) : keccak el ∈ leafHashes keccak elements := by
  rw [leafHashes]
  apply (List.perm_insertionSort _ _).mem_iff.2
  rw [List.mem_dedup]
  exact List.mem_map_of_mem keccak h

/-- C3: for every non-empty collection of leaf elements and every element of
it, folding the proof returned by `get_proof` over the element's keccak leaf
hash — each step combining the running digest with the sibling via the
sorted-concatenation hash — reproduces exactly the tree's root. -/
theorem merkle_proof_reconstructs_root (keccak : String → Nat)
    (keccakPair : Nat → Nat → Nat) (elements : List String) (el : String)
    (h : el ∈ elements) :
    List.foldl (combinedHash keccakPair) (keccak el)
        (getProof keccak keccakPair elements el)
      = rootD keccakPair (leafHashes keccak elements)
    ∧ rootOpt keccakPair (leafHashes keccak elements)
      = some (rootD keccakPair (leafHashes keccak elements)) := by
  have hmem : keccak el ∈ leafHashes keccak elements := mem_leafHashes keccak elements el h
  have hidx : (leafHashes keccak elements).indexOf (keccak el)
      < (leafHashes keccak elements).length := List.indexOf_lt_length.2 hmem
  have hgetD := getD_indexOf_nat (leafHashes keccak elements) (keccak el) hmem
  constructor
  · rw [getProof]
    nth_rewrite 1 [← hgetD]
    exact foldl_getProofAux_eq_rootD keccakPair _ _ hidx
  · exact rootOpt_eq_some_rootD keccakPair _ (List.ne_nil_of_mem hmem)

/-- Witness for C3: a three-leaf tree with toy hash primitives. -/
theorem merkle_proof_reconstructs_root_witness :
    List.foldl (combinedHash (fun a b => 16 * a + b)) ((fun s : String => s.length) "bb")
        (getProof (fun s : String => s.length) (fun a b => 16 * a + b) ["a", "bb", "ccc"] "bb")
      = rootD (fun a b => 16 * a + b)
          (leafHashes (fun s : String => s.length) ["a", "bb", "ccc"]) :=
  (merkle_proof_reconstructs_root (fun s : String => s.length) (fun a b => 16 * a + b)
    ["a", "bb", "ccc"] "bb" (by decide)).1

/-- C4: two leaf collections equal as sets of leaf hashes produce the same
sorted deduplicated layer 0, hence identical layer lists and identical root —
the tree is invariant under permutation and duplication of the input. -/
theorem tree_input_order_invariant (keccak : String → Nat)
    (keccakPair : Nat → Nat → Nat) (l1 l2 : List String)
    (h : (l1.map keccak).toFinset = (l2.map keccak).toFinset) :
    leafHashes keccak l1 = leafHashes keccak l2
    ∧ getLayers keccakPair (leafHashes keccak l1)
        = getLayers keccakPair (leafHashes keccak l2)
    ∧ rootOpt keccakPair (leafHashes keccak l1)
        = rootOpt keccakPair (leafHashes keccak l2) := by
  have hperm : (l1.map keccak).dedup.Perm (l2.map keccak).dedup := by
    rw [List.perm_ext_iff_of_nodup (List.nodup_dedup _) (List.nodup_dedup _)]
    intro a
    rw [List.mem_dedup, List.mem_dedup, ← List.mem_toFinset, ← List.mem_toFinset, h]
  have heq : leafHashes keccak l1 = leafHashes keccak l2 := by
    apply List.eq_of_perm_of_sorted
      (((List.perm_insertionSort _ _).trans hperm).trans
        (List.perm_insertionSort _ _).symm)
      (List.sorted_insertionSort _ _) (List.sorted_insertionSort _ _)
  exact ⟨heq, by rw [heq], by rw [heq]⟩

/-- Witness for C4: `["a", "bb"]` against the reordered, duplicated
`["bb", "a", "a"]` under a toy leaf hash. -/
theorem tree_input_order_invariant_witness :
    leafHashes (fun s : String => s.length) ["a", "bb"]
      = leafHashes (fun s : String => s.length) ["bb", "a", "a"] :=
  (tree_input_order_invariant (fun s : String => s.length) (fun a b => a + b)
    ["a", "bb"] ["bb", "a", "a"] (by decide)).1

/-- C6 counterexample: constructing a tree from zero leaves does not fail —
there is no `EmptyTreeError` anywhere in the code.  The constructor produces
`elements = []` and `layers = [[]]`, and only the later `root` access has no
value (Python's `layers[-1][0]` raises `IndexError`, modelled as `none`). -/
theorem empty_tree_counterexample :
    leafHashes (fun s : String => s.length) [] = []
    ∧ getLayers (fun a b : Nat => a + b) [] = [[]]
    ∧ rootOpt (fun a b : Nat => a + b) [] = none :=
  ⟨rfl, rfl, rfl⟩

/-- C6 amended: `MerkleTree.__init__` accepts zero leaves without raising:
the element list is empty, `get_layers` returns the single layer `[[]]`, and
only the `root` property fails (an `IndexError`, not an `EmptyTreeError`),
rendered here as `rootOpt = none`. -/
theorem empty_tree_behavior (keccak : String → Nat) (keccakPair : Nat → Nat → Nat) :
    leafHashes keccak [] = []
    ∧ getLayers keccakPair [] = [[]]
    ∧ rootOpt keccakPair [] = none :=
  ⟨rfl, rfl, rfl⟩

theorem getLast?_eq_getD (l : List Nat) (h : l ≠ []) :
    l.getLast? = some (l.getD (l.length - 1) 0) := by
  have hlen : l.length - 1 < l.length := by
    cases l with
    | nil => exact absurd rfl h
    | cons a t => simp
  rw [List.getLast?_eq_get?, List.getD_eq_get?, List.get?_eq_get hlen]
  rfl

/-- C7: on a layer of odd length `n > 1` the builder's next layer has length
`(n + 1) / 2` (the ceiling of `n / 2`), carries the previous layer's last
element unchanged, and fills every other position `i` with the combined hash
of the adjacent pair at `2 * i` and `2 * i + 1`. -/
theorem odd_layer_step (keccakPair : Nat → Nat → Nat) (l : List Nat)
    (hodd : l.length % 2 = 1) (hgt : 1 < l.length) :
    (getNextLayer keccakPair l).length = (l.length + 1) / 2
    ∧ (getNextLayer keccakPair l).getLast? = l.getLast?
    ∧ ∀ i, 2 * i + 1 < l.length →
        (getNextLayer keccakPair l).getD i 0
          = combinedHash keccakPair (l.getD (2 * i) 0) (l.getD (2 * i + 1) 0) := by
  refine ⟨getNextLayer_length _ _, ?_, fun i hi => getNextLayer_getD_pair _ _ i hi⟩
  have hne : l ≠ [] := by
    intro h0
    rw [h0] at hgt
    simp at hgt
  have hnextne : getNextLayer keccakPair l ≠ [] := by
    intro h0
    have := getNextLayer_length keccakPair l
    rw [h0] at this
    simp at this
    omega
  rw [getLast?_eq_getD _ hne, getLast?_eq_getD _ hnextne]
  rw [getNextLayer_length keccakPair l]
  rw [show (l.length + 1) / 2 - 1 = l.length / 2 from by omega]
  rw [getNextLayer_getD_last keccakPair l (l.length / 2) (by omega)]
  rw [show 2 * (l.length / 2) = l.length - 1 from by omega]

/-- Witness for C7 at the odd five-element layer `[5, 1, 4, 1, 9]`. -/
theorem odd_layer_step_witness :
    (getNextLayer (fun a b => 16 * a + b + 1) [5, 1, 4, 1, 9]).length = 3
    ∧ (getNextLayer (fun a b => 16 * a + b + 1) [5, 1, 4, 1, 9]).getLast? = some 9
    ∧ (getNextLayer (fun a b => 16 * a + b + 1) [5, 1, 4, 1, 9]).getD 0 0
        = combinedHash (fun a b => 16 * a + b + 1) 5 1 := by
  have h := odd_layer_step (fun a b => 16 * a + b + 1) [5, 1, 4, 1, 9]
    (by decide) (by decide)
  exact ⟨h.1, by rw [h.2.1]; rfl, h.2.2 0 (by decide)⟩

/-- C8: a tree built from exactly one leaf element: `get_proof` on that
element returns the empty sequence, and the root is the keccak hash of the
single leaf itself. -/
theorem single_leaf_tree (keccak : String → Nat) (keccakPair : Nat → Nat → Nat)
    (el : String) :
    getProof keccak keccakPair [el] el = []
    ∧ rootOpt keccakPair (leafHashes keccak [el]) = some (keccak el) := by
  have hlh : leafHashes keccak [el] = [keccak el] := by
    simp [leafHashes, List.insertionSort, List.orderedInsert]
  constructor
  · rw [getProof, hlh, getLayers_single keccakPair [keccak el] (by simp),
      List.indexOf_cons_self]
    simp [getProofAux]
  · rw [hlh, rootOpt, getLayers_single keccakPair [keccak el] (by simp)]
    rfl

/-! ## Case-collapsed keys in the floor allocation -/

/-- The floor value contributed by the last entry of `data` whose lowercased
key equals `k`, if any: the value that survives the dict comprehension's
overwrite-on-duplicate-key behaviour. -/
def lastFloorFor (T tot : Nat) (k : String) : List (String × Nat) → Option Nat
  | [] => none
  | p :: rest =>
    match lastFloorFor T tot k rest with
    | some v => some v
    | none => if lowerStr p.1 = k then some (p.2 * T / tot) else none

theorem dictLookup_floorAlloc_foldl (T tot : Nat) (k : String) :
    ∀ (data : List (String × Nat)) (d0 : List (String × Nat)),
      dictLookup k (data.foldl (fun d p => dictInsert d (lowerStr p.1) (p.2 * T / tot)) d0)
        = match lastFloorFor T tot k data with
          | some v => some v
          | none => dictLookup k d0 := by
  intro data
  induction data with
  | nil => intro d0; rfl
  | cons p rest ih =>
    intro d0
    rw [List.foldl_cons, ih (dictInsert d0 (lowerStr p.1) (p.2 * T / tot))]
    simp only [lastFloorFor]
    cases hl : lastFloorFor T tot k rest with
    | some v => rfl
    | none =>
      rw [dictLookup_dictInsert]
      by_cases hpk : lowerStr p.1 = k
      · rw [if_pos hpk, if_pos hpk]
      · rw [if_neg hpk, if_neg hpk]

theorem lastFloorFor_append (T tot : Nat) (k : String) :
    ∀ (l1 l2 : List (String × Nat)),
      lastFloorFor T tot k (l1 ++ l2)
        = match lastFloorFor T tot k l2 with
          | some v => some v
          | none => lastFloorFor T tot k l1 := by
  intro l1 l2
  induction l1 with
  | nil =>
    cases hl : lastFloorFor T tot k l2 with
    | some v => simp [hl]
    | none => simp [hl, lastFloorFor]
  | cons p rest ih =>
    rw [List.cons_append]
    simp only [lastFloorFor, ih]
    cases hl : lastFloorFor T tot k l2 with
    | some v => rfl
    | none => rfl

theorem lastFloorFor_none (T tot : Nat) (k : String) (l : List (String × Nat))
    (h : ∀ p ∈ l, lowerStr p.1 ≠ k) : lastFloorFor T tot k l = none := by
  induction l with
  | nil => rfl
  | cons p rest ih =>
    simp only [lastFloorFor]
    rw [ih (fun q hq => h q (List.mem_cons_of_mem p hq))]
    rw [if_neg (h p (List.mem_cons_self p rest))]

theorem nodup_keys_floorAlloc (T tot : Nat) :
    ∀ (data : List (String × Nat)) (d0 : List (String × Nat)), (keys d0).Nodup →
      (keys (data.foldl (fun d p => dictInsert d (lowerStr p.1) (p.2 * T / tot)) d0)).Nodup := by
  intro data
  induction data with
  | nil => intro d0 h; exact h
  | cons p rest ih =>
    intro d0 h
    rw [List.foldl_cons]
    exact ih _ (nodup_keys_dictInsert d0 (lowerStr p.1) (p.2 * T / tot) h)

/-- C9: when two distinct keys of the weight map denote the same address up
to letter case, the dict comprehension of `create_merkle` collapses them into
a single lowercased claim key whose floor amount is computed from the weight
of the key iterated later; the earlier weight is overwritten — it still
inflates `total_amounts` in the divisor, but never reaches the allocation. -/
theorem case_collapsed_weight_discarded (pre mid post : List (String × Nat))
    (k1 k2 : String) (v1 v2 T : Nat) (hk : k1 ≠ k2)
    (hl : lowerStr k1 = lowerStr k2)
    (hpost : ∀ p ∈ post, lowerStr p.1 ≠ lowerStr k1) :
    dictLookup (lowerStr k1)
        (floorOf (pre ++ (k1, v1) :: mid ++ (k2, v2) :: post) T)
      = some (v2 * T / listSum (pre ++ (k1, v1) :: mid ++ (k2, v2) :: post))
    ∧ (keys (floorOf (pre ++ (k1, v1) :: mid ++ (k2, v2) :: post) T)).count (lowerStr k1)
        = 1 := by
  set data := pre ++ (k1, v1) :: mid ++ (k2, v2) :: post with hdata
  set tot := listSum data with htot
  have h3 : lastFloorFor T tot (lowerStr k1) ((k2, v2) :: post)
      = some (v2 * T / tot) := by
    simp only [lastFloorFor, lastFloorFor_none T tot (lowerStr k1) post hpost]
    rw [if_pos hl.symm]
  have hlast : lastFloorFor T tot (lowerStr k1) data = some (v2 * T / tot) := by
    rw [hdata, lastFloorFor_append, h3]
  have hlook : dictLookup (lowerStr k1) (floorOf data T) = some (v2 * T / tot) := by
    rw [floorOf, floorAlloc, ← htot, dictLookup_floorAlloc_foldl, hlast]
  refine ⟨hlook, ?_⟩
  have hnodup : (keys (floorOf data T)).Nodup := by
    rw [floorOf, floorAlloc, ← htot]
    exact nodup_keys_floorAlloc T tot data [] (by simp [keys])
  have hmem : lowerStr k1 ∈ keys (floorOf data T) :=
    mem_keys_of_dictLookup _ _ _ hlook
  exact List.count_eq_one_of_mem hnodup hmem

/-- Witness for C9: keys `A` and `a` collapse; the surviving amount is the
floor share of the later weight 7 against the full divisor 12 = 5 + 7. -/
theorem case_collapsed_weight_discarded_witness :
    dictLookup (lowerStr "A") (floorOf [("A", 5), ("a", 7)] 100)
      = some (7 * 100 / listSum [("A", 5), ("a", 7)]) :=
  (case_collapsed_weight_discarded [] [] [] "A" "a" 5 7 100 (by decide) (by decide)
    (by intro p hp; simp at hp)).1

/-! ## The distribution artifact of `create_merkle`

`create_merkle` finishes by enumerating the sorted addresses into
`(account, index, amount)` triples, packing each into a node string via
`encode_packed(["address", "uint", "uint"], el)` + `encode_hex` (abstracted as
`encodePacked`), building the tree over the nodes, and emitting a JSON object.
`web3.to_checksum_address` is abstracted as `toChecksum`. -/

/-- JSON values as the artifact schema uses them. -/
inductive JVal where
  | jstr : String → JVal
  | jnum : Nat → JVal
  | jarr : List JVal → JVal
  | jobj : List (String × JVal) → JVal

/-- Field lookup in a JSON object. -/
def jGet (k : String) : List (String × JVal) → Option JVal
  | [] => none
  | p :: rest => if p.1 = k then some p.2 else jGet k rest

/-- Lowercase hex digit of a value below 16. -/
def hexChar (n : Nat) : Char := "0123456789abcdef".data.getD n 'x'

/-- The hex rendering `encode_hex` gives a 32-byte digest: `0x` followed by
exactly 64 lowercase hex digits, the fixed-width big-endian base-16 form of
the 256-bit value. -/
def toHex64 (n : Nat) : String :=
  "0x" ++ String.mk ((List.range 64).map (fun i => hexChar (n / 16 ^ (63 - i) % 16)))

/-- Dict indexing with the (here unreachable) Python `KeyError` defaulted. -/
def valueOf (d : List (String × Nat)) (k : String) : Nat := (dictLookup k d).getD 0

/-- The list
`elements = [(account, index, user_amount_data[account]) for index, account in enumerate(addresses)]`. -/
def elementsOf (data : List (String × Nat)) (T : Nat) : List (String × Nat × Nat) :=
  (addrsOf data T).enum.map (fun q => (q.2, q.1, valueOf (createAlloc data T) q.2))

/-- The node strings `nodes = [encode_hex(encode_packed(["address", "uint", "uint"], el)) ...]`. -/
def nodesOf (encodePacked : String → Nat → Nat → String) (data : List (String × Nat))
    (T : Nat) : List String :=
  (elementsOf data T).map (fun t => encodePacked t.1 t.2.1 t.2.2)

/-- The `distribution` dict literal of `create_merkle`: `merkle_root` (hex
string), `token_total` (the plain integer sum), and `claims`, one record per
element keyed by checksummed address with fields `index`, `amount` (decimal
string) and `proof` (hex strings). -/
def distributionJson (keccak : String → Nat) (keccakPair : Nat → Nat → Nat)
    (encodePacked : String → Nat → Nat → String) (toChecksum : String → String)
    (data : List (String × Nat)) (T : Nat) : List (String × JVal) :=
  [("merkle_root", JVal.jstr (toHex64
      (rootD keccakPair (leafHashes keccak (nodesOf encodePacked data T))))),
   ("token_total", JVal.jnum (sumValues (createAlloc data T))),
   ("claims", JVal.jobj ((elementsOf data T).map (fun t =>
      (toChecksum t.1, JVal.jobj
        [("index", JVal.jnum t.2.1),
         ("amount", JVal.jstr (Nat.repr t.2.2)),
         ("proof", JVal.jarr ((getProof keccak keccakPair (nodesOf encodePacked data T)
              ((nodesOf encodePacked data T).getD t.2.1 "")).map
            (fun hsh => JVal.jstr (toHex64 hsh))))]))))]

/-- A `0x`-prefixed string of exactly 64 lowercase hex digits. -/
def isHex64 (s : String) : Prop :=
  ∃ ds : List Char, s.data = '0' :: 'x' :: ds ∧ ds.length = 64
    ∧ ∀ c ∈ ds, c ∈ "0123456789abcdef".data

theorem getD_mem_of_lt (l : List Char) (n : Nat) (d : Char) (h : n < l.length) :
    l.getD n d ∈ l := by
  rw [List.getD_eq_get?, List.get?_eq_get h]
  exact List.get_mem l n h

theorem isHex64_toHex64 (n : Nat) : isHex64 (toHex64 n) := by
  refine ⟨(List.range 64).map (fun i => hexChar (n / 16 ^ (63 - i) % 16)), rfl, by simp, ?_⟩
  intro c hc
  rw [List.mem_map] at hc
  obtain ⟨i, _, rfl⟩ := hc
  apply getD_mem_of_lt
  have : n / 16 ^ (63 - i) % 16 < 16 := Nat.mod_lt _ (by omega)
  simpa using this

/-- C5 counterexample: the artifact `create_merkle` emits has no
`num_recipients` field at all, and its `token_total` is the plain integer sum,
not a decimal string (the claimed shape is the one the separate
`generate_yb_merkle_root.py` script emits). -/
theorem artifact_fields_counterexample :
    jGet "num_recipients" (distributionJson (fun s => s.length) (fun a b => a + b)
        (fun a i amt => a ++ Nat.repr i ++ Nat.repr amt) (fun s => s) [("A", 5)] 1000)
      = none
    ∧ jGet "token_total" (distributionJson (fun s => s.length) (fun a b => a + b)
        (fun a i amt => a ++ Nat.repr i ++ Nat.repr amt) (fun s => s) [("A", 5)] 1000)
      = some (JVal.jnum 1000)
    ∧ ¬ ∃ s, jGet "token_total" (distributionJson (fun s => s.length) (fun a b => a + b)
        (fun a i amt => a ++ Nat.repr i ++ Nat.repr amt) (fun s => s) [("A", 5)] 1000)
      = some (JVal.jstr s) := by
  refine ⟨rfl, rfl, ?_⟩
  rintro ⟨s, hs⟩
  rw [show jGet "token_total" (distributionJson (fun s => s.length) (fun a b => a + b)
      (fun a i amt => a ++ Nat.repr i ++ Nat.repr amt) (fun s => s) [("A", 5)] 1000)
    = some (JVal.jnum 1000) from rfl] at hs
  simp at hs

/-- C5 amended: the artifact of `create_merkle` holds `merkle_root` as a
`0x`-prefixed 64-hex-digit string, `token_total` as a plain integer equal to
the distributed total, no `num_recipients` field, and a `claims` object with
one record per sorted address, keyed by checksummed address, holding an
integer `index`, a decimal-string `amount` and a `proof` list of
`0x`-prefixed 64-hex-digit strings. -/
theorem artifact_fields (keccak : String → Nat) (keccakPair : Nat → Nat → Nat)
    (encodePacked : String → Nat → Nat → String) (toChecksum : String → String)
    (data : List (String × Nat)) (T : Nat)
    (h1 : data ≠ []) (h2 : 0 < listSum data) :
    (∃ s, jGet "merkle_root"
        (distributionJson keccak keccakPair encodePacked toChecksum data T)
        = some (JVal.jstr s) ∧ isHex64 s)
    ∧ jGet "token_total" (distributionJson keccak keccakPair encodePacked toChecksum data T)
        = some (JVal.jnum T)
    ∧ jGet "num_recipients"
        (distributionJson keccak keccakPair encodePacked toChecksum data T) = none
    ∧ ∃ cl, jGet "claims" (distributionJson keccak keccakPair encodePacked toChecksum data T)
          = some (JVal.jobj cl)
        ∧ cl.length = (addrsOf data T).length
        ∧ ∀ p ∈ cl,
            (∃ addr ∈ addrsOf data T, p.1 = toChecksum addr)
            ∧ ∃ (i a : Nat) (pf : List Nat), p.2 = JVal.jobj
                  [("index", JVal.jnum i),
                   ("amount", JVal.jstr (Nat.repr a)),
                   ("proof", JVal.jarr (pf.map (fun hsh => JVal.jstr (toHex64 hsh))))]
                ∧ ∀ hsh ∈ pf, isHex64 (toHex64 hsh) := by
  refine ⟨⟨toHex64 (rootD keccakPair (leafHashes keccak (nodesOf encodePacked data T))),
    rfl, isHex64_toHex64 _⟩, ?_, rfl, ?_⟩
  · rw [show jGet "token_total"
        (distributionJson keccak keccakPair encodePacked toChecksum data T)
      = some (JVal.jnum (sumValues (createAlloc data T))) from rfl,
      create_merkle_exact_sum data T h1 h2]
  · refine ⟨_, rfl, by simp [elementsOf], ?_⟩
    intro p hp
    rw [List.mem_map] at hp
    obtain ⟨t, ht, rfl⟩ := hp
    constructor
    · rw [elementsOf, List.mem_map] at ht
      obtain ⟨q, hq, rfl⟩ := ht
      refine ⟨q.2, ?_, rfl⟩
      have hq2 : (q.1, q.2) ∈ (addrsOf data T).enum := hq
      have hm := List.mem_enum hq2
      rw [hm.2]
      exact List.getElem_mem hm.1
    · exact ⟨t.2.1, t.2.2,
        getProof keccak keccakPair (nodesOf encodePacked data T)
          ((nodesOf encodePacked data T).getD t.2.1 ""),
        rfl, fun hsh _ => isHex64_toHex64 hsh⟩

/-- Witness for the amended C5 at the single-entry weight map `{A: 5}` with
total 1000 and toy primitives. -/
theorem artifact_fields_witness :
    jGet "token_total" (distributionJson (fun s => s.length) (fun a b => a + b)
        (fun a i amt => a ++ Nat.repr i ++ Nat.repr amt) (fun s => s) [("A", 5)] 1000)
      = some (JVal.jnum 1000)
    ∧ jGet "num_recipients" (distributionJson (fun s => s.length) (fun a b => a + b)
        (fun a i amt => a ++ Nat.repr i ++ Nat.repr amt) (fun s => s) [("A", 5)] 1000)
      = none := by
  have h := artifact_fields (fun s : String => s.length) (fun a b => a + b)
    (fun a i amt => a ++ Nat.repr i ++ Nat.repr amt) (fun s => s) [("A", 5)] 1000
    (by decide) (by decide)
  exact ⟨h.2.1, h.2.2.1⟩
